import Mathlib

/-!
Verification of a tabular Q-learning agent for interactive fiction
(`src/agent.py`, `src/utils.py`).

The Python program keeps two dictionaries on the agent:
`self.V : state ↦ (action ↦ value)` (the Q-table) and
`self.valid_actions : state ↦ list of actions` (the memoized valid-action
cache).  We model Python dictionaries as association lists with the same
insertion-order behaviour (`aset` updates in place or appends).  Numeric
values are modelled by `ℚ` (the program does exact-looking arithmetic on
rewards and Q-values).  The game engine (Jericho's `FrotzEnv`) is an
external oracle and is modelled as an abstract transition system; every
oracle interaction performed by the Python code is recorded in an event
log so that claims about "which oracle calls happen" can be stated.
-/

/-- Association-list lookup: first binding wins (Python dicts have unique
keys, which our update operation `aset` preserves). -/
def alookup {α : Type} (l : List (String × α)) (k : String) : Option α :=
  match l with
  | [] => none
  | (k₀, v₀) :: rest => if k₀ = k then some v₀ else alookup rest k

/-- Association-list update: replace the binding in place if the key is
present, otherwise append at the end — exactly a Python dict assignment's
observable behaviour (insertion order preserved). -/
def aset {α : Type} (l : List (String × α)) (k : String) (v : α) : List (String × α) :=
  match l with
  | [] => [(k, v)]
  | (k₀, v₀) :: rest => if k₀ = k then (k, v) :: rest else (k₀, v₀) :: aset rest k v

theorem alookup_aset {α : Type} (l : List (String × α)) (k k' : String) (v : α) :
    alookup (aset l k v) k' = if k' = k then some v else alookup l k' := by
  induction l with
  | nil =>
    by_cases h : k' = k
    · subst h; simp [aset, alookup]
    · have h' : ¬k = k' := fun he => h he.symm
      simp [aset, alookup, h, h']
  | cons hd tl ih =>
    obtain ⟨k₀, v₀⟩ := hd
    by_cases h0 : k₀ = k
    · subst h0
      by_cases h : k₀ = k'
      · subst h; simp [aset, alookup]
      · have h' : ¬k' = k₀ := fun he => h he.symm
        simp [aset, alookup, h, h']
    · by_cases h : k₀ = k'
      · subst h
        simp [aset, alookup, h0]
      · have h' : ¬k' = k₀ := fun he => h he.symm
        simp [aset, alookup, h0, h, ih]

theorem aset_ne_nil {α : Type} (l : List (String × α)) (k : String) (v : α) :
    aset l k v ≠ [] := by
  cases l with
  | nil => simp [aset]
  | cons hd tl =>
    obtain ⟨k₀, v₀⟩ := hd
    by_cases h : k₀ = k <;> simp [aset, h]

theorem mem_aset {α : Type} {l : List (String × α)} {k : String} {v : α}
    {x : String × α} (hx : x ∈ aset l k v) : x = (k, v) ∨ x ∈ l := by
  induction l with
  | nil => simpa [aset] using hx
  | cons hd tl ih =>
    obtain ⟨k₀, v₀⟩ := hd
    by_cases h : k₀ = k
    · subst h
      rcases (by simpa [aset] using hx : x = (k₀, v) ∨ x ∈ tl) with h1 | h1
      · exact Or.inl (by simp [h1])
      · exact Or.inr (by simp [h1])
    · rcases (by simpa [aset, h] using hx : x = (k₀, v₀) ∨ x ∈ aset tl k v) with h1 | h1
      · exact Or.inr (by simp [h1])
      · rcases ih h1 with h2 | h2
        · exact Or.inl h2
        · exact Or.inr (by simp [h2])

theorem mem_keys_aset {α : Type} {l : List (String × α)} {k a : String} {v : α}
    (ha : a ∈ (aset l k v).map Prod.fst) : a = k ∨ a ∈ l.map Prod.fst := by
  rcases List.mem_map.mp ha with ⟨x, hx, hax⟩
  rcases mem_aset hx with h | h
  · left; rw [← hax, h]
  · right; exact List.mem_map.mpr ⟨x, h, hax⟩

theorem keys_aset_nodup {α : Type} {l : List (String × α)} (k : String) (v : α)
    (h : (l.map Prod.fst).Nodup) : ((aset l k v).map Prod.fst).Nodup := by
  induction l with
  | nil => simp [aset]
  | cons hd tl ih =>
    obtain ⟨k₀, v₀⟩ := hd
    simp only [List.map_cons, List.nodup_cons] at h
    by_cases hk : k₀ = k
    · subst hk
      simpa [aset] using h
    · simp only [aset, if_neg hk, List.map_cons, List.nodup_cons]
      refine ⟨fun hmem => ?_, ih h.2⟩
      rcases mem_keys_aset hmem with h1 | h1
      · exact hk h1
      · exact h.1 h1

theorem alookup_of_mem_nodup {α : Type} {l : List (String × α)} {a : String} {v : α}
    (hnd : (l.map Prod.fst).Nodup) (hmem : (a, v) ∈ l) : alookup l a = some v := by
  induction l with
  | nil => simp at hmem
  | cons hd tl ih =>
    obtain ⟨k₀, v₀⟩ := hd
    simp only [List.map_cons, List.nodup_cons] at hnd
    rcases List.mem_cons.mp hmem with h | h
    · obtain ⟨h1, h2⟩ := Prod.mk.injEq .. ▸ h
      simp [alookup, h1.symm, h2]
    · have hk : k₀ ≠ a := by
        intro he
        exact hnd.1 (List.mem_map.mpr ⟨(a, v), h, by simp [he]⟩)
      simp [alookup, hk, ih hnd.2 h]

/-- `max` of a nonempty list of rationals, as Python's builtin `max` computes
it on `dict.values()`; the `[]` case is never reached by the program (every
table row is created nonempty) and is given the neutral value 0. -/
def listMax : List ℚ → ℚ
  | [] => 0
  | x :: xs => xs.foldl max x

theorem foldl_max_mem (xs : List ℚ) (a : ℚ) : xs.foldl max a ∈ a :: xs := by
  induction xs generalizing a with
  | nil => simp [List.foldl]
  | cons y ys ih =>
    have h := ih (max a y)
    rw [List.foldl_cons]
    rcases List.mem_cons.mp h with h1 | h1
    · rcases max_choice a y with h2 | h2
      · rw [h1, h2]; exact List.mem_cons_self _ _
      · rw [h1, h2]; exact List.mem_cons_of_mem _ (List.mem_cons_self _ _)
    · exact List.mem_cons_of_mem _ (List.mem_cons_of_mem _ h1)

theorem listMax_mem {vs : List ℚ} (h : vs ≠ []) : listMax vs ∈ vs := by
  cases vs with
  | nil => exact absurd rfl h
  | cons x xs => exact foldl_max_mem xs x

/-!
## State Canonicalizer (`src/utils.py`, `pretty_print_state`)

The Python function (operating on the `str()` rendering of the raw state):
1. `state.replace('\\\'', '\'')` — collapse backslash-escaped apostrophes;
2. `re.sub(r'\\n|b\'|b"', ' ', state)` — replace the two-character
   sequences `\n`, `b'`, `b"` by a single space (left-to-right,
   non-overlapping, alternatives tried in order);
3. `state.strip('\'').strip('\"').strip()` — strip leading/trailing
   apostrophes, then double quotes, then whitespace.
We embed it over `List Char`.
-/

/-- Step 1: `str.replace("\\'", "'")` — scan left to right, each
backslash-apostrophe pair becomes a single apostrophe. -/
def replaceBS : List Char → List Char
  | [] => []
  | [c] => [c]
  | c₁ :: c₂ :: rest =>
    if c₁ = '\\' ∧ c₂ = '\'' then '\'' :: replaceBS rest
    else c₁ :: replaceBS (c₂ :: rest)

/-- Step 2: `re.sub(r'\\n|b\'|b"', ' ', s)` — the three two-character
patterns each become one space; the regex engine scans left to right with
non-overlapping matches. -/
def subPat : List Char → List Char
  | [] => []
  | [c] => [c]
  | c₁ :: c₂ :: rest =>
    if (c₁ = '\\' ∧ c₂ = 'n') ∨ (c₁ = 'b' ∧ (c₂ = '\'' ∨ c₂ = '"')) then
      ' ' :: subPat rest
    else c₁ :: subPat (c₂ :: rest)

/-- The whitespace characters Python's `str.strip()` removes (the ASCII
ones; game text contains no exotic Unicode whitespace). -/
def pyWS (c : Char) : Bool :=
  c = ' ' || c = '\t' || c = '\n' || c = '\r' || c = '\x0b' || c = '\x0c'

/-- Remove trailing characters satisfying `p` (the right half of a Python
`strip`). -/
def dropTrail (p : Char → Bool) (cs : List Char) : List Char :=
  (cs.reverse.dropWhile p).reverse

/-- Python `str.strip(chars)`: drop matching characters from both ends. -/
def pstrip (p : Char → Bool) (cs : List Char) : List Char :=
  dropTrail p (cs.dropWhile p)

def prettyChars (cs : List Char) : List Char :=
  pstrip pyWS (pstrip (fun c => c = '"') (pstrip (fun c => c = '\'') (subPat (replaceBS cs))))

/-- `pretty_print_state` of `src/utils.py` (the input is already a string,
so the leading `str(state)` is the identity). -/
def pretty_print_state (s : String) : String :=
  String.mk (prettyChars s.toList)

/-- No occurrence, at any position, of one of the two-character sequences
the canonicalizer rewrites (`\'`, `\n`, `b'`, `b"`). -/
def cleanBody : List Char → Bool
  | [] => true
  | [_] => true
  | c₁ :: c₂ :: rest =>
    !((c₁ = '\\' && (c₂ = '\'' || c₂ = 'n')) || (c₁ = 'b' && (c₂ = '\'' || c₂ = '"'))) &&
      cleanBody (c₂ :: rest)

/-- A character that the three strips could remove at an end: an
apostrophe, a double quote, or whitespace. -/
def stripEdge (c : Char) : Bool :=
  c = '\'' || c = '"' || pyWS c

/-- An already-clean string in the sense of the spec: no escape/quoting
artifacts or embedded `\n` markers anywhere, and no leading or trailing
quote characters or whitespace. -/
def cleanString (s : String) : Bool :=
  cleanBody s.toList &&
    s.toList.head?.all (fun c => !stripEdge c) &&
    s.toList.getLast?.all (fun c => !stripEdge c)

theorem replaceBS_of_clean {cs : List Char} (h : cleanBody cs = true) :
    replaceBS cs = cs := by
  induction cs with
  | nil => rfl
  | cons c cs' ih =>
    cases cs' with
    | nil => rfl
    | cons c₂ rest =>
      simp only [cleanBody, Bool.and_eq_true, Bool.not_eq_true'] at h
      have hpat : ¬(c = '\\' ∧ c₂ = '\'') := by
        rintro ⟨h1, h2⟩
        simp [h1, h2] at h
      simp only [replaceBS, if_neg hpat]
      exact congrArg (c :: ·) (ih h.2)

theorem subPat_of_clean {cs : List Char} (h : cleanBody cs = true) :
    subPat cs = cs := by
  induction cs with
  | nil => rfl
  | cons c cs' ih =>
    cases cs' with
    | nil => rfl
    | cons c₂ rest =>
      simp only [cleanBody, Bool.and_eq_true, Bool.not_eq_true'] at h
      have hpat : ¬((c = '\\' ∧ c₂ = 'n') ∨ (c = 'b' ∧ (c₂ = '\'' ∨ c₂ = '"'))) := by
        rintro (⟨h1, h2⟩ | ⟨h1, h2 | h2⟩) <;> simp [h1, h2] at h
      simp only [subPat, if_neg hpat]
      exact congrArg (c :: ·) (ih h.2)

theorem dropWhile_of_head {p : Char → Bool} {cs : List Char}
    (h : cs.head?.all (fun c => !p c) = true) : cs.dropWhile p = cs := by
  cases cs with
  | nil => rfl
  | cons c rest =>
    simp only [List.head?, Option.all_some, Bool.not_eq_true'] at h
    simp [List.dropWhile_cons, h]

theorem pstrip_of_edges {p : Char → Bool} {cs : List Char}
    (h1 : cs.head?.all (fun c => !p c) = true)
    (h2 : cs.getLast?.all (fun c => !p c) = true) : pstrip p cs = cs := by
  unfold pstrip dropTrail
  rw [dropWhile_of_head h1]
  rw [dropWhile_of_head (by rwa [List.head?_reverse])]
  exact List.reverse_reverse cs

/-!
## Data model: the Agent (`src/agent.py`, `Agent.__init__`) and the Oracle

The Oracle is Jericho's `FrotzEnv`, modelled as an abstract deterministic
transition system over an opaque position type `σ`.  `stepObs p a` is the
raw observation string returned by `env.step(a)` (the `state_prime` the
Python code receives), `rawLast p` is `env.get_state()[-1]` (what
`get_state_pretty` canonicalizes).  Every oracle interaction is logged as
an `OEvent`.
-/

abbrev QTable := List (String × List (String × ℚ))
abbrev ACache := List (String × List String)

structure Agent where
  epsilon : ℚ
  alpha : ℚ
  gamma : ℚ
  default_actions : List String
  V : QTable
  valid_actions : ACache
deriving DecidableEq, Repr

/-- The oracle interactions `Agent` can perform, in the order the code
performs them: `env.reset()`, `env.step(a)`, `env.get_walkthrough()`,
`env.get_score()`, `env.get_valid_actions()`, `env.game_over()`,
`env.victory()`, `env.get_state()`. -/
inductive OEvent where
  | reset
  | step (a : String)
  | walkthroughQ
  | scoreQ
  | validQ
  | overQ
  | victoryQ
  | stateQ
deriving DecidableEq, Repr

structure Oracle (σ : Type) where
  start : σ
  next : σ → String → σ
  stepReward : σ → String → ℚ
  stepObs : σ → String → String
  rawLast : σ → String
  validActs : σ → List String
  over : σ → Bool
  victory : σ → Bool
  score : σ → ℤ
  walkthrough : List String

/-- Explicit randomness: `unif` models the stream of `np.random.uniform(0,1)`
draws, `picks` the stream of indices consumed by `random.choice`. -/
structure Rng where
  unif : List ℚ
  picks : List ℕ
deriving DecidableEq, Repr

def Rng.draw (r : Rng) : ℚ × Rng := (r.unif.headD 0, ⟨r.unif.tail, r.picks⟩)

def Rng.pick (r : Rng) : ℕ × Rng := (r.picks.headD 0, ⟨r.unif, r.picks.tail⟩)

/-- `random.choice l` driven by an explicit index draw `k`; Python raises on
an empty list — the claims below prove the relevant call sites never pass
one, and the `[]` case here returns a dummy. -/
def choose (l : List String) (k : ℕ) : String := l.getD (k % l.length) ""

theorem choose_mem {l : List String} (k : ℕ) (h : l ≠ []) : choose l k ∈ l := by
  have hlen : 0 < l.length := List.length_pos.mpr h
  have hk : k % l.length < l.length := Nat.mod_lt _ hlen
  rw [choose, List.getD_eq_getElem l _ hk]
  exact List.getElem_mem hk

/-!
## Value table and cache operations (`src/agent.py`)
-/

/-- `Agent.get_sa_value`: unseen state or unseen action resolve to 0. -/
def get_sa_value (V : QTable) (state action : String) : ℚ :=
  match alookup V state with
  | none => 0
  | some row =>
    match alookup row action with
    | none => 0
    | some v => v

/-- `Agent.put_sa_value`: create the row if needed, then overwrite the
(state, action) entry. -/
def put_sa_value (V : QTable) (state action : String) (value : ℚ) : QTable :=
  aset V state (aset ((alookup V state).getD []) action value)

/-- `Agent.get_max_state_value`: 0 for an unseen state, otherwise
`max(self.V[state].values())`. -/
def get_max_state_value (V : QTable) (state : String) : ℚ :=
  match alookup V state with
  | none => 0
  | some row => listMax (row.map Prod.snd)

theorem get_put_sa_value (V : QTable) (st act s a : String) (v : ℚ) :
    get_sa_value (put_sa_value V st act v) s a =
      if s = st ∧ a = act then v else get_sa_value V s a := by
  by_cases hs : s = st
  · subst hs
    by_cases ha : a = act
    · subst ha
      simp [get_sa_value, put_sa_value, alookup_aset]
    · have h1 : ¬(s = s ∧ a = act) := fun h => ha h.2
      have ha' : ¬act = a := fun he => ha he.symm
      cases h : alookup V s with
      | none =>
        simp [get_sa_value, put_sa_value, alookup_aset, h, ha, ha', h1, alookup]
      | some row =>
        simp [get_sa_value, put_sa_value, alookup_aset, h, ha, h1]
  · have h1 : ¬(s = st ∧ a = act) := fun h => hs h.1
    simp [get_sa_value, put_sa_value, alookup_aset, hs, h1]

/-- `Agent.get_state_pretty`: canonicalize `env.get_state()[-1]`. -/
def state_pretty {σ : Type} (O : Oracle σ) (p : σ) : String :=
  pretty_print_state (O.rawLast p)

structure MemoRes where
  acts : List String
  agent : Agent
  log : List OEvent
deriving DecidableEq, Repr

/-- `Agent.get_valid_actions_memo`: key the cache by the canonical state of
the oracle's current position; on a miss query `env.get_valid_actions()`
and substitute `default_actions` when the result is empty. -/
def get_valid_actions_memo {σ : Type} (O : Oracle σ) (p : σ) (A : Agent) : MemoRes :=
  match alookup A.valid_actions (state_pretty O p) with
  | some acts => ⟨acts, A, [OEvent.stateQ]⟩
  | none =>
    let avail := O.validActs p
    let avail2 := if avail = [] then A.default_actions else avail
    ⟨avail2, { A with valid_actions := aset A.valid_actions (state_pretty O p) avail2 },
      [OEvent.stateQ, OEvent.validQ]⟩

theorem memo_V {σ : Type} (O : Oracle σ) (p : σ) (A : Agent) :
    (get_valid_actions_memo O p A).agent.V = A.V := by
  unfold get_valid_actions_memo
  cases alookup A.valid_actions (state_pretty O p) <;> rfl

theorem memo_config {σ : Type} (O : Oracle σ) (p : σ) (A : Agent) :
    (get_valid_actions_memo O p A).agent.epsilon = A.epsilon ∧
    (get_valid_actions_memo O p A).agent.alpha = A.alpha ∧
    (get_valid_actions_memo O p A).agent.gamma = A.gamma ∧
    (get_valid_actions_memo O p A).agent.default_actions = A.default_actions := by
  unfold get_valid_actions_memo
  cases alookup A.valid_actions (state_pretty O p) <;> exact ⟨rfl, rfl, rfl, rfl⟩

/-!
## Policy & Learner (`src/agent.py`)
-/

structure SelRes where
  action : String
  agent : Agent
  log : List OEvent
  rng : Rng
deriving DecidableEq, Repr

/-- The tie-break candidate list computed inside `Agent.get_best_action`:
the valid actions whose recorded value equals `get_max_state_value`. -/
def bestCands (V : QTable) (state : String) (avail : List String) : List String :=
  avail.filter (fun a => decide (get_sa_value V state a = get_max_state_value V state))

/-- `Agent.get_best_action`: canonicalize the current state, memoize the
valid actions, filter those achieving the max value, break ties with
`random.choice`. -/
def get_best_action {σ : Type} (O : Oracle σ) (p : σ) (A : Agent) (r : Rng) : SelRes :=
  let m := get_valid_actions_memo O p A
  let cands := bestCands A.V (state_pretty O p) m.acts
  let pk := r.pick
  ⟨choose cands pk.1, m.agent, OEvent.stateQ :: m.log, pk.2⟩

/-- `Agent.learn_select_action` (ε-greedy): always computes the best action
first (consuming a tie-break draw), re-reads the memoized valid actions,
then draws a uniform sample; with probability ε picks a uniformly random
valid action, otherwise returns the best action. -/
def learn_select_action {σ : Type} (O : Oracle σ) (p : σ) (A : Agent) (r : Rng) : SelRes :=
  let b := get_best_action O p A r
  let m := get_valid_actions_memo O p b.agent
  let d := b.rng.draw
  if d.1 < A.epsilon then
    let pk := d.2.pick
    ⟨choose m.acts pk.1, m.agent, b.log ++ m.log, pk.2⟩
  else
    ⟨b.action, m.agent, b.log ++ m.log, d.2⟩

structure StepRes (σ : Type) where
  pos : σ
  agent : Agent
  log : List OEvent
  rng : Rng

/-- `Agent.learn_from_action` — one TD(0) update.  Note the faithful
subtlety: the Q-target looks up `get_max_state_value` at the *raw*
observation `state_prime` returned by `env.step(action)`, not at its
canonicalized form. -/
def learn_from_action {σ : Type} (O : Oracle σ) (p : σ) (A : Agent) (r : Rng) : StepRes σ :=
  let st := state_pretty O p
  let sel := learn_select_action O p A r
  let q := get_sa_value sel.agent.V st sel.action
  let reward := O.stepReward p sel.action
  let obs := O.stepObs p sel.action
  let maxv := get_max_state_value sel.agent.V obs
  let newQ := q + A.alpha * (reward + A.gamma * maxv - q)
  ⟨O.next p sel.action, { sel.agent with V := put_sa_value sel.agent.V st sel.action newQ },
    OEvent.stateQ :: sel.log ++ [OEvent.step sel.action], sel.rng⟩

/-- The loop of `Agent.learn_from_episode`, with explicit fuel (the Python
loop is bounded only by the oracle's own termination). -/
def learnLoop {σ : Type} (O : Oracle σ) (fuel : ℕ) (p : σ) (A : Agent) (r : Rng) : StepRes σ :=
  match fuel with
  | 0 => ⟨p, A, [], r⟩
  | n + 1 =>
    if O.over p then ⟨p, A, [OEvent.overQ], r⟩
    else if O.victory p then ⟨p, A, [OEvent.overQ, OEvent.victoryQ], r⟩
    else
      let s := learn_from_action O p A r
      let rest := learnLoop O n s.pos s.agent s.rng
      ⟨rest.pos, rest.agent, OEvent.overQ :: OEvent.victoryQ :: (s.log ++ rest.log), rest.rng⟩

/-- `Agent.learn_from_episode`: reset, then loop until the oracle signals
game over or victory. -/
def learn_from_episode {σ : Type} (O : Oracle σ) (fuel : ℕ) (A : Agent) (r : Rng) : StepRes σ :=
  let res := learnLoop O fuel O.start A r
  ⟨res.pos, res.agent, OEvent.reset :: res.log, res.rng⟩

theorem get_best_action_V {σ : Type} (O : Oracle σ) (p : σ) (A : Agent) (r : Rng) :
    (get_best_action O p A r).agent.V = A.V := memo_V O p A

theorem learn_select_action_V {σ : Type} (O : Oracle σ) (p : σ) (A : Agent) (r : Rng) :
    (learn_select_action O p A r).agent.V = A.V := by
  unfold learn_select_action
  by_cases h : (get_best_action O p A r).rng.draw.1 < A.epsilon
  · simp only [if_pos h]
    rw [memo_V, get_best_action_V]
  · simp only [if_neg h]
    rw [memo_V, get_best_action_V]

/-!
## Helper facts for the clean-input claim
-/

theorem edge_all_of_stripEdge {p : Char → Bool} (hp : ∀ c, p c = true → stripEdge c = true)
    {o : Option Char} (h : o.all (fun c => !stripEdge c) = true) :
    o.all (fun c => !p c) = true := by
  cases o with
  | none => rfl
  | some c =>
    simp only [Option.all_some, Bool.not_eq_true'] at h ⊢
    cases hpc : p c with
    | false => rfl
    | true => rw [hp c hpc] at h; exact h

theorem stripEdge_of_quote (c : Char) (h : (c = '\'' : Bool) = true) : stripEdge c = true := by
  simp only [decide_eq_true_eq] at h
  simp [stripEdge, h]

theorem stripEdge_of_dquote (c : Char) (h : (c = '"' : Bool) = true) : stripEdge c = true := by
  simp only [decide_eq_true_eq] at h
  simp [stripEdge, h]

theorem stripEdge_of_ws (c : Char) (h : pyWS c = true) : stripEdge c = true := by
  simp [stripEdge, h]

/-- Claim C6: the State Canonicalizer is a pure function (the embedding is
a total Lean function, so determinism and never-failing hold by
construction), and on every already-clean input — no `\'`, `\n`, `b'`,
`b"` artifact sequences anywhere and no leading or trailing quote
characters or whitespace — it returns its input unchanged. -/
theorem c6_canonicalizer_clean_identity (s : String) (h : cleanString s = true) :
    pretty_print_state s = s := by
  unfold cleanString at h
  simp only [Bool.and_eq_true] at h
  obtain ⟨⟨hbody, hhead⟩, hlast⟩ := h
  unfold pretty_print_state prettyChars
  rw [replaceBS_of_clean hbody, subPat_of_clean hbody]
  rw [pstrip_of_edges (edge_all_of_stripEdge stripEdge_of_quote hhead)
    (edge_all_of_stripEdge stripEdge_of_quote hlast)]
  rw [pstrip_of_edges (edge_all_of_stripEdge stripEdge_of_dquote hhead)
    (edge_all_of_stripEdge stripEdge_of_dquote hlast)]
  rw [pstrip_of_edges (edge_all_of_stripEdge stripEdge_of_ws hhead)
    (edge_all_of_stripEdge stripEdge_of_ws hlast)]
  cases s with
  | mk data => rfl

theorem c6_witness :
    cleanString "West of House You are standing in an open field" = true ∧
    pretty_print_state "West of House You are standing in an open field" =
      "West of House You are standing in an open field" :=
  ⟨by decide, c6_canonicalizer_clean_identity _ (by decide)⟩

/-- Claim C4: value-table default-zero and recorded-only-max semantics.
For a state with no recorded row, `get` is 0 for every action and
`maxValue` is 0; for a recorded row, `maxValue` is exactly the maximum of
the recorded values, any action without a recorded entry still reads 0
(whatever the valid-action set says — neither function consults it), and
a put is read back exactly. -/
theorem c4_value_table_defaults (V : QTable) (s : String) :
    (alookup V s = none →
      (∀ a, get_sa_value V s a = 0) ∧ get_max_state_value V s = 0) ∧
    (∀ row, alookup V s = some row →
      get_max_state_value V s = listMax (row.map Prod.snd) ∧
      ∀ a, alookup row a = none → get_sa_value V s a = 0) ∧
    (∀ a v, get_sa_value (put_sa_value V s a v) s a = v) := by
  refine ⟨fun h => ⟨fun a => ?_, ?_⟩, fun row h => ⟨?_, fun a ha => ?_⟩, fun a v => ?_⟩
  · simp [get_sa_value, h]
  · simp [get_max_state_value, h]
  · simp [get_max_state_value, h]
  · simp [get_sa_value, h, ha]
  · rw [get_put_sa_value]
    simp

theorem c4_witness :
    get_sa_value [("s", [("a", 3), ("b", 7)])] "t" "x" = 0 ∧
    get_max_state_value [("s", [("a", 3), ("b", 7)])] "t" = 0 ∧
    get_max_state_value [("s", [("a", 3), ("b", 7)])] "s" = 7 ∧
    get_sa_value [("s", [("a", 3), ("b", 7)])] "s" "c" = 0 ∧
    get_sa_value (put_sa_value [("s", [("a", 3), ("b", 7)])] "s" "c" 9) "s" "c" = 9 := by
  have h := c4_value_table_defaults [("s", [("a", 3), ("b", 7)])] "t"
  have h2 := c4_value_table_defaults [("s", [("a", 3), ("b", 7)])] "s"
  exact ⟨(h.1 (by decide)).1 "x", (h.1 (by decide)).2,
    ((h2.2.1 [("a", 3), ("b", 7)] (by decide)).1).trans (by decide),
    (h2.2.1 [("a", 3), ("b", 7)] (by decide)).2 "c" (by decide),
    h2.2.2 "c" 9⟩

/-- The value table after one `learn_from_action`, written over the
original table `A.V` (action selection only touches the cache). -/
theorem learn_agent_V {σ : Type} (O : Oracle σ) (p : σ) (A : Agent) (r : Rng) :
    (learn_from_action O p A r).agent.V =
      put_sa_value A.V (state_pretty O p) (learn_select_action O p A r).action
        (get_sa_value A.V (state_pretty O p) (learn_select_action O p A r).action +
          A.alpha * (O.stepReward p (learn_select_action O p A r).action +
            A.gamma * get_max_state_value A.V
              (O.stepObs p (learn_select_action O p A r).action) -
            get_sa_value A.V (state_pretty O p) (learn_select_action O p A r).action)) := by
  have e : (learn_from_action O p A r).agent.V =
      put_sa_value (learn_select_action O p A r).agent.V (state_pretty O p)
        (learn_select_action O p A r).action
        (get_sa_value (learn_select_action O p A r).agent.V (state_pretty O p)
            (learn_select_action O p A r).action +
          A.alpha * (O.stepReward p (learn_select_action O p A r).action +
            A.gamma * get_max_state_value (learn_select_action O p A r).agent.V
              (O.stepObs p (learn_select_action O p A r).action) -
            get_sa_value (learn_select_action O p A r).agent.V (state_pretty O p)
              (learn_select_action O p A r).action)) := rfl
  rw [e, learn_select_action_V]

theorem td_alpha_one {σ : Type} (O : Oracle σ) (p : σ) (A : Agent) (r : Rng)
    (hα : A.alpha = 1) :
    get_sa_value (learn_from_action O p A r).agent.V (state_pretty O p)
        (learn_select_action O p A r).action =
      O.stepReward p (learn_select_action O p A r).action +
        A.gamma * get_max_state_value A.V
          (O.stepObs p (learn_select_action O p A r).action) := by
  rw [learn_agent_V, get_put_sa_value, if_pos ⟨rfl, rfl⟩, hα]
  ring

theorem td_alpha_zero {σ : Type} (O : Oracle σ) (p : σ) (A : Agent) (r : Rng)
    (hα : A.alpha = 0) (s a : String) :
    get_sa_value (learn_from_action O p A r).agent.V s a = get_sa_value A.V s a := by
  rw [learn_agent_V, get_put_sa_value, hα]
  by_cases h : s = state_pretty O p ∧ a = (learn_select_action O p A r).action
  · rw [if_pos h, h.1, h.2]
    ring
  · rw [if_neg h]

/-- Claim C3: TD(0) update determinism.  With α = 1 the stored value after
`learn_from_action` is exactly `reward + γ · maxValue(s')` (where `s'` is
the observation the code actually passes to `get_max_state_value`), the
prior value contributing nothing; with α = 0 every `get` reads the same
value after the update as before, regardless of the reward. -/
theorem c3_td0_determinism {σ : Type} (O : Oracle σ) (p : σ) (A : Agent) (r : Rng) :
    (A.alpha = 1 →
      get_sa_value (learn_from_action O p A r).agent.V (state_pretty O p)
          (learn_select_action O p A r).action =
        O.stepReward p (learn_select_action O p A r).action +
          A.gamma * get_max_state_value A.V
            (O.stepObs p (learn_select_action O p A r).action)) ∧
    (A.alpha = 0 → ∀ s a,
      get_sa_value (learn_from_action O p A r).agent.V s a = get_sa_value A.V s a) :=
  ⟨fun hα => td_alpha_one O p A r hα, fun hα s a => td_alpha_zero O p A r hα s a⟩

/-- A minimal concrete oracle over the one-point position type, used to
instantiate hypotheses of the claims at concrete inputs.  At its single
position the canonical state is `"s0"`, the only valid action `"go"`,
stepping yields reward 10 and the raw observation `"obs"`. -/
def oUnit : Oracle Unit where
  start := ()
  next := fun _ _ => ()
  stepReward := fun _ _ => 10
  stepObs := fun _ _ => "obs"
  rawLast := fun _ => "s0"
  validActs := fun _ => ["go"]
  over := fun _ => false
  victory := fun _ => false
  score := fun _ => 0
  walkthrough := ["go"]

def rng0 : Rng := ⟨[], []⟩

/-- A fully greedy agent with α = 1, γ = 1 and an empty table. -/
def agentA1 : Agent := ⟨0, 1, 1, ["n"], [], []⟩

/-- An agent with α = 0 and one recorded value. -/
def agentA0 : Agent := ⟨0, 0, 1, ["n"], [("s0", [("go", 3)])], []⟩

theorem c3_witness :
    get_sa_value (learn_from_action oUnit () agentA1 rng0).agent.V (state_pretty oUnit ())
        (learn_select_action oUnit () agentA1 rng0).action = 10 ∧
    get_sa_value (learn_from_action oUnit () agentA0 rng0).agent.V "s0" "go" =
      get_sa_value agentA0.V "s0" "go" := by
  constructor
  · exact ((c3_td0_determinism oUnit () agentA1 rng0).1 rfl).trans
      (show (10 : ℚ) + 1 * 0 = 10 by norm_num)
  · exact (c3_td0_determinism oUnit () agentA0 rng0).2 rfl "s0" "go"

/-!
## Claim C1: the Q-target's maxValue lookup key

`learn_from_action` computes `max_a Q(s',a)` as
`self.get_max_state_value(state_prime)` where `state_prime` is the *raw*
observation returned by `self.game.step(action)`; it is never passed
through `pretty_print_state`, while every key stored in `self.V` is
canonicalized by `get_state_pretty`.  The concrete oracle below makes the
mismatch observable: the raw observation is `"b'Room\n'"` (canonical form
`"Room"`), and the table holds value 5 under `"Room"`.
-/

def oBug : Oracle Unit where
  start := ()
  next := fun _ _ => ()
  stepReward := fun _ _ => 0
  stepObs := fun _ _ => "b'Room\\n'"
  rawLast := fun _ => "s0"
  validActs := fun _ => ["go"]
  over := fun _ => false
  victory := fun _ => false
  score := fun _ => 0
  walkthrough := []

def agentBug : Agent := ⟨0, 1, 1, ["n"], [("Room", [("x", 5)])], []⟩

/-- Claim C1 fails on the code: with α = 1, γ = 1 and reward 0, the spec's
update target `reward + γ · maxValue(canonicalize(nextState))` equals 5,
but the code stores 0 for the executed (state, action) pair because it
looks `get_max_state_value` up at the raw observation, which misses the
canonically-keyed table row. -/
theorem c1_target_not_canonicalized :
    pretty_print_state (oBug.stepObs () "go") = "Room" ∧
    oBug.stepReward () "go" + agentBug.gamma *
      get_max_state_value agentBug.V (pretty_print_state (oBug.stepObs () "go")) = 5 ∧
    get_sa_value (learn_from_action oBug () agentBug rng0).agent.V (state_pretty oBug ())
      (learn_select_action oBug () agentBug rng0).action = 0 ∧
    (learn_select_action oBug () agentBug rng0).action = "go" ∧
    state_pretty oBug () = "s0" := by
  refine ⟨by decide, ?_, ?_, by decide, by decide⟩
  · have h1 : get_max_state_value agentBug.V (pretty_print_state (oBug.stepObs () "go")) = 5 := by
      decide
    rw [h1]
    show (0 : ℚ) + 1 * 5 = 5
    norm_num
  · rw [td_alpha_one oBug () agentBug rng0 rfl]
    have h2 : get_max_state_value agentBug.V
        (oBug.stepObs () (learn_select_action oBug () agentBug rng0).action) = 0 := by
      decide
    rw [h2]
    show (0 : ℚ) + 1 * 0 = 0
    norm_num

/-- A cache hit returns the cached row and performs no valid-action
enumeration. -/
theorem memo_hit {σ : Type} (O : Oracle σ) (p : σ) (A : Agent) {acts : List String}
    (h : alookup A.valid_actions (state_pretty O p) = some acts) :
    get_valid_actions_memo O p A = ⟨acts, A, [OEvent.stateQ]⟩ := by
  simp [get_valid_actions_memo, h]

/-- Claim C5: the valid-action cache contract.  A second call with the
oracle at the same position returns the identical sequence, leaves the
agent (hence the cache) unchanged — populated at most once — and performs
no valid-action enumeration (its log is only the `get_state` read used to
compute the cache key); after any call the cache holds the returned
sequence; an empty oracle enumeration on a miss is replaced by the
configured default list; and with a non-empty default list (and no empty
row already cached) the returned sequence is never empty. -/
theorem c5_valid_action_cache {σ : Type} (O : Oracle σ) (p : σ) (A : Agent) :
    (get_valid_actions_memo O p (get_valid_actions_memo O p A).agent =
      ⟨(get_valid_actions_memo O p A).acts, (get_valid_actions_memo O p A).agent,
        [OEvent.stateQ]⟩) ∧
    alookup (get_valid_actions_memo O p A).agent.valid_actions (state_pretty O p) =
      some (get_valid_actions_memo O p A).acts ∧
    (alookup A.valid_actions (state_pretty O p) = none → O.validActs p = [] →
      (get_valid_actions_memo O p A).acts = A.default_actions) ∧
    (A.default_actions ≠ [] →
      (∀ s l, alookup A.valid_actions s = some l → l ≠ []) →
      (get_valid_actions_memo O p A).acts ≠ []) := by
  cases h : alookup A.valid_actions (state_pretty O p) with
  | some acts =>
    have hm : get_valid_actions_memo O p A = ⟨acts, A, [OEvent.stateQ]⟩ := by
      simp [get_valid_actions_memo, h]
    rw [hm]
    refine ⟨memo_hit O p A h, h, ?_, ?_⟩
    · intro h'
      exact Option.noConfusion h'
    · intro _ hc
      exact hc _ _ h
  | none =>
    have hacts : (get_valid_actions_memo O p A).acts =
        (if O.validActs p = [] then A.default_actions else O.validActs p) := by
      simp [get_valid_actions_memo, h]
    have hagent : (get_valid_actions_memo O p A).agent.valid_actions =
        aset A.valid_actions (state_pretty O p)
          (if O.validActs p = [] then A.default_actions else O.validActs p) := by
      simp [get_valid_actions_memo, h]
    have hl : alookup (get_valid_actions_memo O p A).agent.valid_actions (state_pretty O p) =
        some ((get_valid_actions_memo O p A).acts) := by
      rw [hagent, alookup_aset, if_pos rfl, hacts]
    refine ⟨memo_hit O p _ hl, hl, ?_, ?_⟩
    · intro _ he
      rw [hacts, if_pos he]
    · intro hd _
      rw [hacts]
      by_cases he : O.validActs p = []
      · rw [if_pos he]; exact hd
      · rw [if_neg he]; exact he

/-- `oUnit` with an oracle that reports no valid actions anywhere. -/
def oEmptyActs : Oracle Unit := { oUnit with validActs := fun _ => [] }

theorem c5_witness :
    (get_valid_actions_memo oEmptyActs () agentA1).acts = agentA1.default_actions ∧
    (get_valid_actions_memo oEmptyActs () agentA1).acts ≠ [] ∧
    get_valid_actions_memo oEmptyActs () (get_valid_actions_memo oEmptyActs () agentA1).agent =
      ⟨(get_valid_actions_memo oEmptyActs () agentA1).acts,
        (get_valid_actions_memo oEmptyActs () agentA1).agent, [OEvent.stateQ]⟩ := by
  have h := c5_valid_action_cache oEmptyActs () agentA1
  exact ⟨h.2.2.1 (by decide) rfl,
    h.2.2.2 (by decide) (fun s l hl => absurd hl (by simp [alookup])),
    h.1⟩

/-!
## Playback/Demo Driver (`Agent.demo_game`)

`demo_game` resets the game, fetches the walkthrough, then loops while the
oracle reports neither game-over nor victory, dispatching on the mode
string each iteration.  The embedding records every oracle interaction in
order: the loop condition contributes `overQ` (and `victoryQ` when
`game_over()` returned false — Python's `and` short-circuits), the
branches contribute their own reads, `verbose` printing contributes the
`get_state_pretty`/`get_score` reads the prints perform, and the final
`self.game.step(action)` contributes `step`.  The Python loop has no step
bound; the embedding takes explicit fuel and reports `fuelOut` when it
runs out.  The unguarded `walkthrough_actions[i]` access is modelled by
`List.get?`, with the out-of-range case surfacing as `indexErr` (Python
raises `IndexError` there). -/

inductive DemoOutcome where
  | finalScore (s : ℤ)
  | humanEnd (won : Bool) (s : ℤ)
  | humanQuit (s : ℤ)
  | badMode (msg : String)
  | indexErr
  | fuelOut
deriving DecidableEq, Repr

structure DemoRes (σ : Type) where
  out : DemoOutcome
  pos : σ
  agent : Agent
  log : List OEvent
  rng : Rng
  ins : List String
deriving DecidableEq

/-- The exact error string returned for an unrecognized mode (the Python
source concatenates four string literals). -/
def demoErrMsg : String :=
  "ERROR: The playthrough mode entered does not exist. Enter \"random\" for a playthrough with random moves, \"walkthrough\" for a playthrough with the optimal steps to get the maximum possible score for the game, or \"agent\" for a playthrough with the best moves learned by the agent."

/-- Exiting the while loop: non-human modes return `get_score()`; human
mode prints the state, checks `victory()`, prints the score, and returns
`None`. -/
def demoExit {σ : Type} (O : Oracle σ) (mode : String) (p : σ) (A : Agent) (r : Rng)
    (ins : List String) (pre : List OEvent) : DemoRes σ :=
  if mode = "human" then
    ⟨DemoOutcome.humanEnd (O.victory p) (O.score p), p, A,
      pre ++ [OEvent.stateQ, OEvent.victoryQ, OEvent.scoreQ], r, ins⟩
  else
    ⟨DemoOutcome.finalScore (O.score p), p, A, pre ++ [OEvent.scoreQ], r, ins⟩

/-- The tail of one loop iteration after an action was chosen: the
optional verbose prints around `self.game.step(action)`, then the rest of
the run. -/
def demoCont {σ : Type} (mode : String) (verbose : Bool) (action : String)
    (evs : List OEvent) (rest : DemoRes σ) : DemoRes σ :=
  let v1 : List OEvent := if verbose && !(mode = "human") then [OEvent.stateQ] else []
  let v2 : List OEvent := if verbose && !(mode = "human") then [OEvent.scoreQ] else []
  ⟨rest.out, rest.pos, rest.agent,
    OEvent.overQ :: OEvent.victoryQ :: (evs ++ v1 ++ (OEvent.step action :: (v2 ++ rest.log))),
    rest.rng, rest.ins⟩

def demoLoop {σ : Type} (O : Oracle σ) (mode : String) (verbose : Bool) :
    ℕ → σ → Agent → List String → Rng → ℕ → DemoRes σ
  | 0, p, A, ins, r, _ => ⟨DemoOutcome.fuelOut, p, A, [], r, ins⟩
  | n + 1, p, A, ins, r, i =>
    if O.over p then demoExit O mode p A r ins [OEvent.overQ]
    else if O.victory p then demoExit O mode p A r ins [OEvent.overQ, OEvent.victoryQ]
    else if mode = "random" then
      let m := get_valid_actions_memo O p A
      let pk := r.pick
      demoCont mode verbose (choose m.acts pk.1) m.log
        (demoLoop O mode verbose n (O.next p (choose m.acts pk.1)) m.agent ins pk.2 (i + 1))
    else if mode = "walkthrough" then
      match O.walkthrough.get? i with
      | none => ⟨DemoOutcome.indexErr, p, A, [OEvent.overQ, OEvent.victoryQ], r, ins⟩
      | some a =>
        demoCont mode verbose a []
          (demoLoop O mode verbose n (O.next p a) A ins r (i + 1))
    else if mode = "agent" then
      let b := get_best_action O p A r
      demoCont mode verbose b.action b.log
        (demoLoop O mode verbose n (O.next p b.action) b.agent ins b.rng (i + 1))
    else if mode = "human" then
      let m := get_valid_actions_memo O p A
      let action := ins.headD ""
      if action = "I quit" then
        ⟨DemoOutcome.humanQuit (O.score p), p, m.agent,
          OEvent.overQ :: OEvent.victoryQ :: OEvent.stateQ :: (m.log ++ [OEvent.scoreQ]),
          r, ins.tail⟩
      else
        demoCont mode verbose action (OEvent.stateQ :: m.log)
          (demoLoop O mode verbose n (O.next p action) m.agent ins.tail r (i + 1))
    else
      ⟨DemoOutcome.badMode demoErrMsg, p, A, [OEvent.overQ, OEvent.victoryQ], r, ins⟩

/-- `Agent.demo_game`: reset, fetch the walkthrough, then run the loop
from the start position with iteration counter 0. -/
def demo_game {σ : Type} (O : Oracle σ) (mode : String) (verbose : Bool) (fuel : ℕ)
    (A : Agent) (ins : List String) (r : Rng) : DemoRes σ :=
  let res := demoLoop O mode verbose fuel O.start A ins r 0
  ⟨res.out, res.pos, res.agent, OEvent.reset :: OEvent.walkthroughQ :: res.log, res.rng, res.ins⟩

theorem demoExit_agent {σ : Type} (O : Oracle σ) (mode : String) (p : σ) (A : Agent)
    (r : Rng) (ins : List String) (pre : List OEvent) :
    (demoExit O mode p A r ins pre).agent = A := by
  unfold demoExit
  split <;> rfl

theorem demoCont_agent {σ : Type} (mode : String) (verbose : Bool) (action : String)
    (evs : List OEvent) (rest : DemoRes σ) :
    (demoCont mode verbose action evs rest).agent = rest.agent := rfl

theorem demoLoop_V {σ : Type} (O : Oracle σ) (mode : String) (verbose : Bool) (fuel : ℕ) :
    ∀ (p : σ) (A : Agent) (ins : List String) (r : Rng) (i : ℕ),
      (demoLoop O mode verbose fuel p A ins r i).agent.V = A.V := by
  induction fuel with
  | zero => intro p A ins r i; rfl
  | succ n ih =>
    intro p A ins r i
    simp only [demoLoop]
    by_cases h1 : O.over p
    · rw [if_pos h1, demoExit_agent]
    · rw [if_neg h1]
      by_cases h2 : O.victory p
      · rw [if_pos h2, demoExit_agent]
      · rw [if_neg h2]
        by_cases h3 : mode = "random"
        · rw [if_pos h3, demoCont_agent, ih, memo_V]
        · rw [if_neg h3]
          by_cases h4 : mode = "walkthrough"
          · rw [if_pos h4]
            cases hw : O.walkthrough.get? i with
            | none => rfl
            | some a => rw [demoCont_agent, ih]
          · rw [if_neg h4]
            by_cases h5 : mode = "agent"
            · rw [if_pos h5, demoCont_agent, ih, get_best_action_V]
            · rw [if_neg h5]
              by_cases h6 : mode = "human"
              · rw [if_pos h6]
                by_cases h7 : ins.headD "" = "I quit"
                · rw [if_pos h7]
                  exact memo_V O p A
                · rw [if_neg h7, demoCont_agent, ih, memo_V]
              · rw [if_neg h6]

/-- Claim C8: frame property of playback.  For every mode, oracle, fuel,
input stream and randomness, `demo_game` leaves the value table exactly
as it was: playback may read the table and populate the valid-action
cache, but never writes a table entry. -/
theorem c8_playback_frame {σ : Type} (O : Oracle σ) (mode : String) (verbose : Bool)
    (fuel : ℕ) (A : Agent) (ins : List String) (r : Rng) :
    (demo_game O mode verbose fuel A ins r).agent.V = A.V :=
  demoLoop_V O mode verbose fuel O.start A ins r 0

theorem demoCont_out {σ : Type} (mode : String) (verbose : Bool) (action : String)
    (evs : List OEvent) (rest : DemoRes σ) :
    (demoCont mode verbose action evs rest).out = rest.out := rfl

set_option maxRecDepth 10000 in
/-- Claim C2 as stated is refuted: for the unrecognized mode `"foo"` the
driver does return the descriptive error message, but it has already
interacted with the oracle — the log contains the `reset` and the
walkthrough query performed before the mode dispatch. -/
theorem c2_counterexample :
    "foo" ∉ ["random", "walkthrough", "agent", "human"] ∧
    (demo_game oUnit "foo" true 1 agentA1 [] rng0).out = DemoOutcome.badMode demoErrMsg ∧
    OEvent.reset ∈ (demo_game oUnit "foo" true 1 agentA1 [] rng0).log ∧
    OEvent.walkthroughQ ∈ (demo_game oUnit "foo" true 1 agentA1 [] rng0).log :=
  ⟨by decide, by decide, by decide, by decide⟩

/-- Claim C2, amended: for every mode other than the four recognized ones,
provided the freshly reset game is not already terminal, `demo_game`
returns the descriptive error message without raising and without
mutating the agent; before returning it performs exactly a reset, a
walkthrough query and the loop's two termination checks — in particular
no step, no score query and no valid-action enumeration. -/
theorem c2_amended {σ : Type} (O : Oracle σ) (mode : String) (verbose : Bool) (n : ℕ)
    (A : Agent) (ins : List String) (r : Rng)
    (hm : mode ∉ ["random", "walkthrough", "agent", "human"])
    (hov : O.over O.start = false) (hv : O.victory O.start = false) :
    (demo_game O mode verbose (n + 1) A ins r).out = DemoOutcome.badMode demoErrMsg ∧
    (demo_game O mode verbose (n + 1) A ins r).agent = A ∧
    (demo_game O mode verbose (n + 1) A ins r).log =
      [OEvent.reset, OEvent.walkthroughQ, OEvent.overQ, OEvent.victoryQ] := by
  have h1 : ¬(mode = "random") := fun h => hm (by simp [h])
  have h2 : ¬(mode = "walkthrough") := fun h => hm (by simp [h])
  have h3 : ¬(mode = "agent") := fun h => hm (by simp [h])
  have h4 : ¬(mode = "human") := fun h => hm (by simp [h])
  have hl : demoLoop O mode verbose (n + 1) O.start A ins r 0 =
      ⟨DemoOutcome.badMode demoErrMsg, O.start, A, [OEvent.overQ, OEvent.victoryQ], r, ins⟩ := by
    simp [demoLoop, hov, hv, h1, h2, h3, h4]
  refine ⟨?_, ?_, ?_⟩
  · show (demoLoop O mode verbose (n + 1) O.start A ins r 0).out = _
    rw [hl]
  · show (demoLoop O mode verbose (n + 1) O.start A ins r 0).agent = _
    rw [hl]
  · show OEvent.reset :: OEvent.walkthroughQ ::
        (demoLoop O mode verbose (n + 1) O.start A ins r 0).log = _
    rw [hl]

theorem c2_witness :
    (demo_game oUnit "replay" true 3 agentA1 [] rng0).out = DemoOutcome.badMode demoErrMsg ∧
    (demo_game oUnit "replay" true 3 agentA1 [] rng0).agent = agentA1 :=
  ⟨(c2_amended oUnit "replay" true 2 agentA1 [] rng0 (by decide) rfl rfl).1,
    (c2_amended oUnit "replay" true 2 agentA1 [] rng0 (by decide) rfl rfl).2.1⟩

theorem memo_log_no_step {σ : Type} (O : Oracle σ) (p : σ) (A : Agent) (a : String) :
    OEvent.step a ∉ (get_valid_actions_memo O p A).log := by
  unfold get_valid_actions_memo
  cases alookup A.valid_actions (state_pretty O p) <;> simp

/-- Claim C7: human-mode early exit.  At any loop iteration where the game
is not yet over and the next input line is the sentinel `"I quit"`, the
driver returns immediately with the oracle's score at the current
position, and no `step` call appears anywhere in the remaining trace (the
oracle's position is never advanced again). -/
theorem c7_human_quit {σ : Type} (O : Oracle σ) (p : σ) (A : Agent) (ins : List String)
    (r : Rng) (verbose : Bool) (n i : ℕ)
    (hov : O.over p = false) (hv : O.victory p = false)
    (hin : ins.headD "" = "I quit") :
    (demoLoop O "human" verbose (n + 1) p A ins r i).out = DemoOutcome.humanQuit (O.score p) ∧
    ∀ a, OEvent.step a ∉ (demoLoop O "human" verbose (n + 1) p A ins r i).log := by
  have hl : demoLoop O "human" verbose (n + 1) p A ins r i =
      ⟨DemoOutcome.humanQuit (O.score p), p, (get_valid_actions_memo O p A).agent,
        OEvent.overQ :: OEvent.victoryQ :: OEvent.stateQ ::
          ((get_valid_actions_memo O p A).log ++ [OEvent.scoreQ]), r, ins.tail⟩ := by
    simp only [demoLoop]
    have hin2 : ins.head?.getD "" = "I quit" := by simpa using hin
    simp [hov, hv, hin2]
  rw [hl]
  refine ⟨rfl, fun a hmem => ?_⟩
  simp only [List.mem_cons, List.mem_append] at hmem
  rcases hmem with h | h | h | h | h | h
  · exact OEvent.noConfusion h
  · exact OEvent.noConfusion h
  · exact OEvent.noConfusion h
  · exact memo_log_no_step O p A a h
  · exact OEvent.noConfusion h
  · exact absurd h (List.not_mem_nil _)

theorem c7_witness :
    (demoLoop oUnit "human" true 1 () agentA1 ["I quit"] rng0 0).out =
      DemoOutcome.humanQuit 0 ∧
    ∀ a, OEvent.step a ∉ (demoLoop oUnit "human" true 1 () agentA1 ["I quit"] rng0 0).log :=
  c7_human_quit oUnit () agentA1 ["I quit"] rng0 true 0 0 rfl rfl rfl

/-- The oracle position reached after replaying the first `k` walkthrough
actions from a fresh reset. -/
def pathPos {σ : Type} (O : Oracle σ) : ℕ → σ
  | 0 => O.start
  | k + 1 => O.next (pathPos O k) (O.walkthrough.getD k "")

theorem demoLoop_walkthrough_oob {σ : Type} (O : Oracle σ) (verbose : Bool) :
    ∀ (d i : ℕ), i + d = O.walkthrough.length →
      (∀ k, i ≤ k → k ≤ O.walkthrough.length →
        O.over (pathPos O k) = false ∧ O.victory (pathPos O k) = false) →
      ∀ (A : Agent) (ins : List String) (r : Rng) (fuel : ℕ), d < fuel →
      (demoLoop O "walkthrough" verbose fuel (pathPos O i) A ins r i).out =
        DemoOutcome.indexErr := by
  intro d
  induction d with
  | zero =>
    intro i hi hterm A ins r fuel hf
    obtain ⟨n, rfl⟩ : ∃ n, fuel = n + 1 := ⟨fuel - 1, by omega⟩
    have h := hterm i (le_refl i) (by omega)
    have hw : O.walkthrough[i]? = none := List.getElem?_eq_none (by omega)
    simp [demoLoop, h.1, h.2, hw]
  | succ d ih =>
    intro i hi hterm A ins r fuel hf
    obtain ⟨n, rfl⟩ : ∃ n, fuel = n + 1 := ⟨fuel - 1, by omega⟩
    have h := hterm i (le_refl i) (by omega)
    have hiw : i < O.walkthrough.length := by omega
    have hw : O.walkthrough[i]? = some O.walkthrough[i] := List.getElem?_eq_getElem hiw
    have hnext : O.next (pathPos O i) O.walkthrough[i] = pathPos O (i + 1) := by
      show _ = O.next (pathPos O i) (O.walkthrough.getD i "")
      rw [List.getD_eq_getElem _ _ hiw]
    simp only [demoLoop]
    simp [h.1, h.2, hw, demoCont_out, hnext]
    exact ih (i + 1) (by omega) (fun k hk1 hk2 => hterm k (by omega) hk2) A ins r n (by omega)

/-- Claim C10: implicit precondition of walkthrough playback.  The loop
indexes the walkthrough by the iteration counter with no bounds check, so
whenever the oracle fails to signal game-over or victory at every
position reached while the counter stays within the walkthrough's length,
the run reaches an out-of-range index access (a Python `IndexError`). -/
theorem c10_walkthrough_oob {σ : Type} (O : Oracle σ) (verbose : Bool) (A : Agent)
    (ins : List String) (r : Rng) (fuel : ℕ)
    (hterm : ∀ k, k ≤ O.walkthrough.length →
      O.over (pathPos O k) = false ∧ O.victory (pathPos O k) = false)
    (hf : O.walkthrough.length < fuel) :
    (demo_game O "walkthrough" verbose fuel A ins r).out = DemoOutcome.indexErr := by
  show (demoLoop O "walkthrough" verbose fuel O.start A ins r 0).out = _
  exact demoLoop_walkthrough_oob O verbose O.walkthrough.length 0 (by omega)
    (fun k _ hk2 => hterm k hk2) A ins r fuel (by omega)

theorem c10_witness :
    (demo_game oUnit "walkthrough" true 2 agentA1 [] rng0).out = DemoOutcome.indexErr :=
  c10_walkthrough_oob oUnit true agentA1 [] rng0 2 (fun k _ => ⟨rfl, rfl⟩) (by decide)

/-!
## Claim C9: recorded actions are always drawn from the cached valid list

The invariant: the configured default list is non-empty, every cached
valid-action row is non-empty, and every value-table row is non-empty
with distinct action keys, each recorded action belonging to the cached
valid-action row of its state.  It holds for a fresh agent, is preserved
by `learn_from_action` (hence by `learn_from_episode`), and makes the
tie-break candidate list in `get_best_action` non-empty.
-/

def TableInv (A : Agent) : Prop :=
  A.default_actions ≠ [] ∧
  (∀ s l, alookup A.valid_actions s = some l → l ≠ []) ∧
  (∀ s row, alookup A.V s = some row →
    row ≠ [] ∧ (row.map Prod.fst).Nodup ∧
    ∃ acts, alookup A.valid_actions s = some acts ∧ ∀ av ∈ row, av.1 ∈ acts)

theorem memo_miss {σ : Type} (O : Oracle σ) (p : σ) (A : Agent)
    (hc : alookup A.valid_actions (state_pretty O p) = none) :
    get_valid_actions_memo O p A =
      ⟨(if O.validActs p = [] then A.default_actions else O.validActs p), { A with valid_actions := aset A.valid_actions (state_pretty O p) (if O.validActs p = [] then A.default_actions else O.validActs p) }, [OEvent.stateQ, OEvent.validQ]⟩ := by
  simp [get_valid_actions_memo, hc]

theorem memo_inv {σ : Type} (O : Oracle σ) (p : σ) (A : Agent) (h : TableInv A) :
    TableInv (get_valid_actions_memo O p A).agent ∧
    alookup (get_valid_actions_memo O p A).agent.valid_actions (state_pretty O p) =
      some (get_valid_actions_memo O p A).acts ∧
    (get_valid_actions_memo O p A).acts ≠ [] := by
  cases hc : alookup A.valid_actions (state_pretty O p) with
  | some acts =>
    rw [memo_hit O p A hc]
    exact ⟨h, hc, h.2.1 _ _ hc⟩
  | none =>
    rw [memo_miss O p A hc]
    have hLne : (if O.validActs p = [] then A.default_actions else O.validActs p) ≠ [] := by
      by_cases he : O.validActs p = []
      · rw [if_pos he]; exact h.1
      · rw [if_neg he]; exact he
    refine ⟨⟨h.1, ?_, ?_⟩, ?_, hLne⟩
    · intro s l hl
      rw [alookup_aset] at hl
      by_cases hs : s = state_pretty O p
      · rw [if_pos hs] at hl
        cases hl
        exact hLne
      · rw [if_neg hs] at hl
        exact h.2.1 s l hl
    · intro s row hrow
      obtain ⟨hne, hnd, acts₀, hl₀, hm₀⟩ := h.2.2 s row hrow
      have hs : ¬(s = state_pretty O p) := by
        intro he
        rw [he, hc] at hl₀
        exact Option.noConfusion hl₀
      refine ⟨hne, hnd, acts₀, ?_, hm₀⟩
      rw [alookup_aset, if_neg hs]
      exact hl₀
    · rw [alookup_aset, if_pos rfl]

theorem bestCands_ne_nil {σ : Type} (O : Oracle σ) (p : σ) (A : Agent) (h : TableInv A) :
    bestCands A.V (state_pretty O p) (get_valid_actions_memo O p A).acts ≠ [] := by
  obtain ⟨hinv, hlook, hne⟩ := memo_inv O p A h
  cases hv : alookup A.V (state_pretty O p) with
  | none =>
    have hmax : get_max_state_value A.V (state_pretty O p) = 0 := by
      simp [get_max_state_value, hv]
    have hfull : bestCands A.V (state_pretty O p) (get_valid_actions_memo O p A).acts =
        (get_valid_actions_memo O p A).acts := by
      unfold bestCands
      rw [List.filter_eq_self]
      intro a _
      simp [get_sa_value, hv, hmax]
    rw [hfull]
    exact hne
  | some row =>
    obtain ⟨hrow_ne, hnd, acts₀, hacts₀, hmem⟩ := h.2.2 _ row hv
    have hmax : get_max_state_value A.V (state_pretty O p) = listMax (row.map Prod.snd) := by
      simp [get_max_state_value, hv]
    have hmemmax : listMax (row.map Prod.snd) ∈ row.map Prod.snd :=
      listMax_mem (by simpa using hrow_ne)
    obtain ⟨⟨a₀, v₀⟩, hav_mem, hv₀⟩ := List.mem_map.mp hmemmax
    have hget : get_sa_value A.V (state_pretty O p) a₀ =
        get_max_state_value A.V (state_pretty O p) := by
      simp only [get_sa_value, hv, alookup_of_mem_nodup hnd hav_mem, hmax]
      exact hv₀
    have hmemacts : a₀ ∈ (get_valid_actions_memo O p A).acts := by
      rw [memo_hit O p A hacts₀]
      exact hmem _ hav_mem
    intro hnil
    have hin : a₀ ∈ bestCands A.V (state_pretty O p) (get_valid_actions_memo O p A).acts :=
      List.mem_filter.mpr ⟨hmemacts, by simp [hget]⟩
    rw [hnil] at hin
    exact absurd hin (List.not_mem_nil _)

theorem select_agent_eq {σ : Type} (O : Oracle σ) (p : σ) (A : Agent) (r : Rng) :
    (learn_select_action O p A r).agent =
      (get_valid_actions_memo O p (get_best_action O p A r).agent).agent := by
  simp only [learn_select_action]
  split <;> rfl

theorem select_action_cases {σ : Type} (O : Oracle σ) (p : σ) (A : Agent) (r : Rng) :
    (learn_select_action O p A r).action = (get_best_action O p A r).action ∨
    (learn_select_action O p A r).action =
      choose (get_valid_actions_memo O p (get_best_action O p A r).agent).acts
        (((get_best_action O p A r).rng.draw).2.pick).1 := by
  simp only [learn_select_action]
  split
  · right; rfl
  · left; rfl

theorem select_inv {σ : Type} (O : Oracle σ) (p : σ) (A : Agent) (r : Rng) (h : TableInv A) :
    TableInv (learn_select_action O p A r).agent ∧
    (learn_select_action O p A r).agent.V = A.V ∧
    ∃ acts, alookup (learn_select_action O p A r).agent.valid_actions (state_pretty O p) =
      some acts ∧ (learn_select_action O p A r).action ∈ acts := by
  obtain ⟨Im, Lm, Nm⟩ := memo_inv O p A h
  have hb : (get_best_action O p A r).agent = (get_valid_actions_memo O p A).agent := rfl
  have hm2 : get_valid_actions_memo O p ((get_valid_actions_memo O p A).agent) =
      ⟨(get_valid_actions_memo O p A).acts, (get_valid_actions_memo O p A).agent,
        [OEvent.stateQ]⟩ := memo_hit O p _ Lm
  have hagent : (learn_select_action O p A r).agent = (get_valid_actions_memo O p A).agent := by
    rw [select_agent_eq, hb, hm2]
  refine ⟨hagent ▸ Im, by rw [hagent, memo_V], (get_valid_actions_memo O p A).acts,
    by rw [hagent]; exact Lm, ?_⟩
  rcases select_action_cases O p A r with hc | hc
  · have hba : (get_best_action O p A r).action =
        choose (bestCands A.V (state_pretty O p) (get_valid_actions_memo O p A).acts)
          (r.pick).1 := rfl
    rw [hc, hba]
    exact List.mem_of_mem_filter (choose_mem _ (bestCands_ne_nil O p A h))
  · rw [hc, hb, hm2]
    exact choose_mem _ Nm

theorem put_inv (A : Agent) (st act : String) (v : ℚ) (h : TableInv A)
    (hacts : ∃ acts, alookup A.valid_actions st = some acts ∧ act ∈ acts) :
    TableInv { A with V := put_sa_value A.V st act v } := by
  obtain ⟨acts, hl, hmem⟩ := hacts
  refine ⟨h.1, h.2.1, ?_⟩
  intro s row hrow
  by_cases hs : s = st
  · subst hs
    have he : alookup (put_sa_value A.V s act v) s =
        some (aset ((alookup A.V s).getD []) act v) := by
      unfold put_sa_value
      rw [alookup_aset, if_pos rfl]
    rw [he] at hrow
    cases hrow
    refine ⟨aset_ne_nil _ _ _, ?_, acts, hl, ?_⟩
    · cases hv0 : alookup A.V s with
      | none => simp [aset]
      | some row₀ =>
        have hnd := (h.2.2 s row₀ hv0).2.1
        exact keys_aset_nodup act v hnd
    · intro av hav
      rcases mem_aset hav with h1 | h1
      · rw [h1]
        exact hmem
      · cases hv0 : alookup A.V s with
        | none =>
          rw [hv0] at h1
          exact absurd h1 (List.not_mem_nil _)
        | some row₀ =>
          obtain ⟨_, _, acts₁, hl₁, hm₁⟩ := h.2.2 s row₀ hv0
          have hae : acts₁ = acts := by
            rw [hl] at hl₁
            injection hl₁ with h33
            exact h33.symm
          rw [hv0] at h1
          exact hae ▸ hm₁ av h1
  · have he : alookup (put_sa_value A.V st act v) s = alookup A.V s := by
      unfold put_sa_value
      rw [alookup_aset, if_neg hs]
    rw [he] at hrow
    exact h.2.2 s row hrow

theorem learn_inv {σ : Type} (O : Oracle σ) (p : σ) (A : Agent) (r : Rng) (h : TableInv A) :
    TableInv (learn_from_action O p A r).agent := by
  obtain ⟨hinv, hV, acts, hl, hmem⟩ := select_inv O p A r h
  exact put_inv (learn_select_action O p A r).agent (state_pretty O p)
    (learn_select_action O p A r).action _ hinv ⟨acts, hl, hmem⟩

theorem learnLoop_inv {σ : Type} (O : Oracle σ) (fuel : ℕ) :
    ∀ (p : σ) (A : Agent) (r : Rng), TableInv A → TableInv (learnLoop O fuel p A r).agent := by
  induction fuel with
  | zero => intro p A r h; exact h
  | succ n ih =>
    intro p A r h
    simp only [learnLoop]
    by_cases h1 : O.over p = true
    · rw [if_pos h1]
      exact h
    · rw [if_neg h1]
      by_cases h2 : O.victory p = true
      · rw [if_pos h2]
        exact h
      · rw [if_neg h2]
        exact ih _ _ _ (learn_inv O p A r h)

/-- A freshly constructed agent (`Agent.__init__`): empty table, empty
cache, with the given configuration. -/
def Agent.init (eps al ga : ℚ) (ds : List String) : Agent := ⟨eps, al, ga, ds, [], []⟩

theorem init_inv (eps al ga : ℚ) (ds : List String) (hd : ds ≠ []) :
    TableInv (Agent.init eps al ga ds) :=
  ⟨hd, fun _ _ hl => Option.noConfusion hl, fun _ _ hrow => Option.noConfusion hrow⟩

/-- Claim C9: the learning loop preserves the invariant that every action
recorded in the value table under a canonical state belongs to the cached
valid-action list for that state (with all cached lists non-empty); the
invariant holds for a fresh agent with a non-empty default list, is
preserved by every `learn_from_action` and by `learn_from_episode`, and
under it the tie-break candidate list computed inside `get_best_action`
is never empty, so `random.choice` never receives an empty list during
learning. -/
theorem c9_recorded_actions_valid {σ : Type} (O : Oracle σ) (p : σ) (A : Agent) (r : Rng)
    (fuel : ℕ) (eps al ga : ℚ) (ds : List String) (h : TableInv A) (hd : ds ≠ []) :
    TableInv (learn_from_action O p A r).agent ∧
    TableInv (learn_from_episode O fuel A r).agent ∧
    bestCands A.V (state_pretty O p) (get_valid_actions_memo O p A).acts ≠ [] ∧
    TableInv (Agent.init eps al ga ds) :=
  ⟨learn_inv O p A r h, learnLoop_inv O fuel O.start A r h,
    bestCands_ne_nil O p A h, init_inv eps al ga ds hd⟩

theorem c9_witness :
    bestCands agentA1.V (state_pretty oUnit ()) (get_valid_actions_memo oUnit () agentA1).acts
      ≠ [] ∧
    TableInv (learn_from_action oUnit () agentA1 rng0).agent :=
  have h : TableInv agentA1 :=
    ⟨by decide, fun _ _ hl => Option.noConfusion hl, fun _ _ hrow => Option.noConfusion hrow⟩
  ⟨(c9_recorded_actions_valid oUnit () agentA1 rng0 1 0 1 1 ["n"] h (by decide)).2.2.1,
    (c9_recorded_actions_valid oUnit () agentA1 rng0 1 0 1 1 ["n"] h (by decide)).1⟩
